import Mathlib

/-!
# Verification of the xlview fixture-generator scripts

Shallow embedding of the logic in `scripts/generate_test_xlsx.py`,
`scripts/generate_kitchen_sink_v2.py` and `scripts/generate_kitchen_sink_v3.py`:

* an exact model of IEEE-754 binary64 ("double") arithmetic on integer
  mantissa/exponent pairs, used because the scripts compute the luminance
  `0.299 * r + 0.587 * g + 0.114 * b` in Python floats;
* a model of Python's `int(s, 16)` parser (whitespace, sign, `0x` prefix,
  underscore-separated hex digits);
* the kitchen-sink-v2 whole-workbook font sweep (`has_dark_bg` computation and
  white-font replacement);
* the `create_colors_only` contrast choice;
* `update_manifest`, the output-directory wiring and the `main` dispatch of
  `generate_test_xlsx.py`.

All definitions are computable and reduce in the kernel, so concrete runs are
settled by `decide`.
-/

/-! ## Exact binary64 model

A float is represented as an exact value `m * 2 ^ e` with `m e : ℤ`.
Every IEEE operation computes the exact rational result and rounds it to 53
significant bits, round-to-nearest with ties to even.  The magnitudes occurring
in the scripts are far away from overflow and subnormal territory, so neither
is modelled. -/

/-- Fuelled bit-length recursion (structural, hence kernel-reducible). -/
def bitsF : ℕ → ℕ → ℕ
  | 0, _ => 0
  | fuel + 1, n => if n = 0 then 0 else bitsF fuel (n / 2) + 1

/-- Bit length of a natural number: least `k` with `n < 2 ^ k`. -/
def bits (n : ℕ) : ℕ := bitsF n n

/-- Round-to-nearest (ties to even) of the quotient `a / b` on naturals. -/
def rdiv (a b : ℕ) : ℕ :=
  if 2 * (a % b) < b then a / b
  else if b < 2 * (a % b) then a / b + 1
  else if (a / b) % 2 = 0 then a / b else a / b + 1

/-- An exact dyadic rational `m * 2 ^ e`, the carrier of the binary64 model. -/
structure Fp where
  m : ℤ
  e : ℤ
  deriving DecidableEq, Repr

/-- The exact rational value of a float. -/
def Fp.val (x : Fp) : ℚ := (x.m : ℚ) * (2 : ℚ) ^ x.e

/-- Round an exact dyadic `m * 2 ^ e` to 53 significant bits, ties to even
(the binary64 rounding step; magnitude-symmetric like IEEE). -/
def round53 (m e : ℤ) : Fp :=
  if m.natAbs < 2 ^ 53 then ⟨m, e⟩
  else
    ⟨if m < 0 then -(rdiv m.natAbs (2 ^ (bits m.natAbs - 53)) : ℤ)
      else (rdiv m.natAbs (2 ^ (bits m.natAbs - 53)) : ℤ),
      e + (bits m.natAbs - 53)⟩

/-- Binary64 multiplication: round the exact product. -/
def fmul (x y : Fp) : Fp := round53 (x.m * y.m) (x.e + y.e)

/-- Binary64 addition: round the exact sum. -/
def fadd (x y : Fp) : Fp :=
  if x.e ≤ y.e then round53 (x.m + y.m * 2 ^ (y.e - x.e).toNat) x.e
  else round53 (x.m * 2 ^ (x.e - y.e).toNat + y.m) y.e

/-- Conversion of a Python `int` to a float (exact below `2 ^ 53`). -/
def intF (n : ℤ) : Fp := round53 n 0

/-- The binade exponent of `a / b` (`1 ≤ a`, `1 ≤ b`): the `e` with
`2 ^ e ≤ a / b < 2 ^ (e + 1)`. -/
def divFexp (a b : ℕ) : ℤ :=
  if 2 ^ bits a * b ≤ 2 ^ bits b * a then (bits a : ℤ) - bits b
  else (bits a : ℤ) - bits b - 1

/-- The mantissa step of the division at a given exponent `e`. -/
def divFposAux (a b : ℕ) (e : ℤ) : Fp :=
  ⟨((if 0 ≤ 52 - e then rdiv (a * 2 ^ (52 - e).toNat) b
     else rdiv a (b * 2 ^ (e - 52).toNat) : ℕ) : ℤ), e - 52⟩

/-- Correctly rounded conversion of `a / b` (`1 ≤ a`, `1 ≤ b`) to binary64:
used both for decimal float literals such as `0.299` and for Python's true
division `size / 1_000_000`. -/
def divFpos (a b : ℕ) : Fp := divFposAux a b (divFexp a b)

/-- The float comparison `x < c` against a Python int `c` (Python compares the
exact values, no rounding). -/
def fltInt (x : Fp) (c : ℤ) : Bool :=
  if 0 ≤ x.e then x.m * 2 ^ x.e.toNat < c else x.m < c * 2 ^ (-x.e).toNat

/-- The float comparison `c < x` against a Python int `c`. -/
def fgtInt (x : Fp) (c : ℤ) : Bool :=
  if 0 ≤ x.e then c < x.m * 2 ^ x.e.toNat else c * 2 ^ (-x.e).toNat < x.m

/-- The double nearest to the literal `0.299`. -/
def lit299 : Fp := divFpos 299 1000

/-- The double nearest to the literal `0.587`. -/
def lit587 : Fp := divFpos 587 1000

/-- The double nearest to the literal `0.114`. -/
def lit114 : Fp := divFpos 114 1000

/-- `luminance = 0.299 * r + 0.587 * g + 0.114 * b` exactly as evaluated by
`generate_kitchen_sink_v2.py` line 606 (left-to-right, binary64). -/
def luminanceV2 (r g b : ℤ) : Fp :=
  fadd (fadd (fmul lit299 (intF r)) (fmul lit587 (intF g))) (fmul lit114 (intF b))

/-- `luminance = int(color[0:2],16) * 0.299 + int(color[2:4],16) * 0.587 +
int(color[4:6],16) * 0.114` as evaluated by `generate_test_xlsx.py` line 384
(operands in source order). -/
def luminanceColors (r g b : ℤ) : Fp :=
  fadd (fadd (fmul (intF r) lit299) (fmul (intF g) lit587)) (fmul (intF b) lit114)

/-! ## Python `int(s, 16)` and the colour-string parsing

`generate_kitchen_sink_v2.py` parses channel substrings with `int(rgb[0:2], 16)`
etc.  CPython's `int(string, 16)` strips surrounding whitespace, accepts an
optional sign, an optional `0x`/`0X` prefix (optionally followed by one
underscore), and then hex digits with single underscores between digits.
Characters are handled through their code points. -/

/-- Python whitespace stripped by `int()`: space, `\t`, `\n`, `\r`, `\v`, `\f`. -/
def isPyWs (c : Char) : Bool :=
  decide (c.toNat = 32 ∨ c.toNat = 9 ∨ c.toNat = 10 ∨ c.toNat = 13 ∨
          c.toNat = 11 ∨ c.toNat = 12)

/-- Value of a hexadecimal digit (`0`-`9`, `a`-`f`, `A`-`F`). -/
def hexVal (c : Char) : Option ℕ :=
  if 48 ≤ c.toNat ∧ c.toNat ≤ 57 then some (c.toNat - 48)
  else if 97 ≤ c.toNat ∧ c.toNat ≤ 102 then some (c.toNat - 87)
  else if 65 ≤ c.toNat ∧ c.toNat ≤ 70 then some (c.toNat - 55)
  else none

/-- Digits after the first one: single underscores (code point 95) are allowed
between digits only. -/
def hexDigitsRest (acc : ℕ) : List Char → Option ℕ
  | [] => some acc
  | c :: cs =>
    if c.toNat = 95 then
      match cs with
      | [] => none
      | c2 :: cs2 =>
        match hexVal c2 with
        | some d => hexDigitsRest (16 * acc + d) cs2
        | none => none
    else
      match hexVal c with
      | some d => hexDigitsRest (16 * acc + d) cs
      | none => none

/-- A non-empty underscore-separated hex digit string. -/
def hexDigits : List Char → Option ℕ
  | [] => none
  | c :: cs =>
    match hexVal c with
    | some d => hexDigitsRest d cs
    | none => none

/-- Drop an optional `0x`/`0X` prefix, and one optional underscore after it. -/
def dropHexMark (cs : List Char) : List Char :=
  match cs with
  | c0 :: c1 :: rest =>
    if c0.toNat = 48 ∧ (c1.toNat = 120 ∨ c1.toNat = 88) then
      match rest with
      | c2 :: rest2 => if c2.toNat = 95 then rest2 else rest
      | [] => []
    else cs
  | _ => cs

/-- The unsigned part: optional base prefix, then digits. -/
def hexNatPart (cs : List Char) : Option ℤ :=
  (hexDigits (dropHexMark cs)).map (fun n => (n : ℤ))

/-- Strip Python whitespace from both ends. -/
def stripPyWs (cs : List Char) : List Char :=
  ((cs.dropWhile isPyWs).reverse.dropWhile isPyWs).reverse

/-- CPython's `int(s, 16)`: `none` models a raised `ValueError`. -/
def pyIntHex16 (s : String) : Option ℤ :=
  match stripPyWs s.data with
  | [] => none
  | c :: rest =>
    if c.toNat = 43 then hexNatPart rest
    else if c.toNat = 45 then (hexNatPart rest).map (fun n => -n)
    else hexNatPart (c :: rest)

/-- Python's slice `s[i:j]` on the character list. -/
def pySlice (i j : ℕ) (cs : List Char) : List Char := (cs.drop i).take (j - i)

/-- `rgb = fg.rgb[-6:] if len(fg.rgb) >= 6 else fg.rgb`
(`generate_kitchen_sink_v2.py` line 600). -/
def rgbLast6 (s : String) : List Char :=
  if 6 ≤ s.data.length then s.data.drop (s.data.length - 6) else s.data

/-- The three channel conversions
`r = int(rgb[0:2], 16); g = int(rgb[2:4], 16); b = int(rgb[4:6], 16)`;
`none` models the caught `(ValueError, IndexError)`. -/
def rgbChannels (cs : List Char) : Option (ℤ × ℤ × ℤ) :=
  match pyIntHex16 ⟨pySlice 0 2 cs⟩, pyIntHex16 ⟨pySlice 2 4 cs⟩,
        pyIntHex16 ⟨pySlice 4 6 cs⟩ with
  | some r, some g, some b => some (r, g, b)
  | _, _, _ => none

/-! ## The kitchen-sink-v2 contrast selector and font sweep -/

/-- `white_bg_cells = {"#FFFFFF", "#ffffff", "FFFFFF", "ffffff", None}`
(line 588); the `None` member is modelled by `Option` at the call site. -/
def whiteBgCells : List String := ["#FFFFFF", "#ffffff", "FFFFFF", "ffffff"]

/-- The dark-background decision of lines 598-609 for a present `fg.rgb`
string: falsy or white-listed strings never count as dark; otherwise the three
channels are parsed and `has_dark_bg = luminance < 128`, with parse failures
caught (defaulting to not-dark). -/
def darkForRgb (s : String) : Bool :=
  if s = "" then false
  else if s ∈ whiteBgCells then false
  else
    match rgbChannels (rgbLast6 s) with
    | some (r, g, b) => fltInt (luminanceV2 r g b) 128
    | none => false

/-- A Python value held by a cell; the sweep only tests it against `None`. -/
inductive PyValue where
  | str (v : String)
  | int (v : ℤ)
  | float (v : ℚ)
  | bool (v : Bool)
  deriving DecidableEq

/-- An openpyxl `Color`-like object: `rgb` may be `None` (theme colours). -/
structure ColorObj where
  rgb : Option String
  deriving DecidableEq

/-- An openpyxl fill: pattern fills expose `fgColor`, gradient fills have no
`fgColor` attribute (the `hasattr` test / `AttributeError` handler). -/
inductive Fill where
  | pattern (fgColor : Option ColorObj)
  | gradient
  deriving DecidableEq

/-- The font attributes the sweep reads and rebuilds (source order of the
`Font(...)` call at lines 619-627). -/
structure PyFont where
  name : Option String
  size : Option ℚ
  bold : Option Bool
  italic : Option Bool
  underline : Option String
  strike : Option Bool
  color : Option ColorObj
  deriving DecidableEq

/-- A worksheet cell as seen by the sweep. -/
structure Cell where
  value : Option PyValue
  fill : Option Fill
  font : Option PyFont
  deriving DecidableEq

/-- `cell.fill.fgColor.rgb` behind the truthiness/`hasattr` guards of line 596:
`none` when the fill is falsy, has no `fgColor`, or the colour has no rgb. -/
def fillFgRgb (c : Cell) : Option String :=
  match c.fill with
  | some (Fill.pattern (some col)) => col.rgb
  | _ => none

/-- `has_dark_bg` for a whole cell (lines 594-611). -/
def hasDarkBg (c : Cell) : Bool :=
  match fillFgRgb c with
  | some s => darkForRgb s
  | none => false

/-- The white font colours replaced on light backgrounds (line 617). -/
def whiteFontRgbs : List String := ["FFFFFFFF", "00FFFFFF", "FFFFFF"]

/-- `font_color.rgb in ("FFFFFFFF", "00FFFFFF", "FFFFFF")`; a `None` rgb is in
no tuple. -/
def colorIsWhite (col : ColorObj) : Bool :=
  match col.rgb with
  | some s => decide (s ∈ whiteFontRgbs)
  | none => false

/-- The replacement font of lines 619-627: same name, size, bold, italic,
underline and strike, colour forced to `"000000"`. -/
def blackFont (f : PyFont) : PyFont :=
  ⟨f.name, f.size, f.bold, f.italic, f.underline, f.strike, some ⟨some "000000"⟩⟩

/-- One cell of the post-processing sweep (lines 592-627). -/
def sweepCell (c : Cell) : Cell :=
  match c.value with
  | none => c
  | some _ =>
    match c.font with
    | none => c
    | some f =>
      match f.color with
      | none => { c with font := some (blackFont f) }
      | some col =>
        if colorIsWhite col && !hasDarkBg c then
          { c with font := some (blackFont f) }
        else c

/-- The whole-workbook sweep over every cell. -/
def sweep (cells : List Cell) : List Cell := cells.map sweepCell

/-- Whether a cell's font colour is one of the white strings. -/
def fontIsWhite (c : Cell) : Bool :=
  match c.font with
  | some f =>
    match f.color with
    | some col => colorIsWhite col
    | none => false
  | none => false

/-! ## The `create_colors_only` contrast choice (`generate_test_xlsx.py` 384-385) -/

/-- `Font(color="000000" if luminance > 128 else "FFFFFF")`. -/
def colorsOnlyFontColor (r g b : ℤ) : String :=
  if fgtInt (luminanceColors r g b) 128 then "000000" else "FFFFFF"

/-! ## `update_manifest` (`generate_test_xlsx.py` lines 398-421) -/

/-- Lexicographic comparison of strings by code points, Python's `<=` used by
`sorted`. -/
def lexLe : List Char → List Char → Bool
  | [], _ => true
  | _ :: _, [] => false
  | a :: as, b :: bs =>
    if a.toNat < b.toNat then true
    else if b.toNat < a.toNat then false
    else lexLe as bs

/-- `name.endswith(".xlsx")`-style suffix test, on reversed character lists. -/
def strSuffix (suf s : String) : Bool :=
  decide (s.data.reverse.take suf.data.length = suf.data.reverse)

/-- Whether `OUTPUT_DIR.glob("*.xlsx")` lists this file name.  `pathlib`'s
`Path.glob` matches purely on the pattern — its `*` matches any name part,
including hidden files such as `.hidden.xlsx` (and `.xlsx` itself, `*`
matching the empty string) — so the listing is exactly the names ending in
`.xlsx`. -/
def globXlsx (name : String) : Bool :=
  strSuffix ".xlsx" name

/-- A manifest record `{"name": ..., "size": ...}`. -/
structure ManifestEntry where
  name : String
  size : String
  deriving DecidableEq

/-- Round `10 *` (the value of a nonnegative float) to the nearest integer,
ties to even: the rounding performed by `f"{x:.1f}"` on the exact binary64
value (a tie is impossible there since no double is an odd multiple of 1/20,
so any tie-break agrees with CPython). -/
def times10round (x : Fp) : ℕ :=
  if 0 ≤ x.e then 10 * x.m.toNat * 2 ^ x.e.toNat
  else rdiv (10 * x.m.toNat) (2 ^ (-x.e).toNat)

/-- `f"{x:.1f}"` for the nonnegative doubles produced by the size division. -/
def fmt1f (x : Fp) : String :=
  let n := times10round x
  toString (n / 10) ++ "." ++ toString (n % 10)

/-- The human-readable size string of lines 405-411:  `f"{size/1_000_000:.1f}MB"`
above 1,000,000 bytes, `f"{size/1_000:.1f}KB"` above 1,000, else `f"{size}B"`. -/
def humanSize (size : ℕ) : String :=
  if 1000000 < size then fmt1f (divFpos size 1000000) ++ "MB"
  else if 1000 < size then fmt1f (divFpos size 1000) ++ "KB"
  else toString size ++ "B"

/-- `update_manifest`: glob the `.xlsx` files of the output directory (modelled
as `(name, byte-size)` pairs), sort them, and rebuild the whole manifest list.
The previous manifest content is not an input: the file is rewritten in full. -/
def updateManifest (files : List (String × ℕ)) : List ManifestEntry :=
  ((files.filter (fun f => globXlsx f.1)).insertionSort
      (fun f g => lexLe f.1.data g.1.data = true)).map
    (fun f => ⟨f.1, humanSize f.2⟩)

/-! ## Output directories (`OUTPUT_DIR`, save paths, `mkdir`) -/

/-- Where and how a script writes its spreadsheets: the output directory as a
function of the script's own path (a component list), and whether the script
creates the directory before saving. -/
structure SaveSpec where
  dir : List String → List String
  mkdirBeforeWrite : Bool

/-- `OUTPUT_DIR = Path(__file__).parent.parent / "test"`
(`generate_test_xlsx.py` line 32). -/
def outputDirOf (scriptPath : List String) : List String :=
  scriptPath.dropLast.dropLast ++ ["test"]

/-- `generate_test_xlsx.py`: every `create_*` runs
`OUTPUT_DIR.mkdir(exist_ok=True)` before `wb.save(OUTPUT_DIR / name)`. -/
def testXlsxSave : SaveSpec := ⟨outputDirOf, true⟩

/-- `generate_kitchen_sink_v2.py` line 630: a hard-coded absolute path
`/Users/robby/projects/xlview/test/kitchen_sink_v2.xlsx`, no `mkdir`. -/
def kitchenSinkV2Save : SaveSpec :=
  ⟨fun _ => ["Users", "robby", "projects", "xlview", "test"], false⟩

/-- `generate_kitchen_sink_v3.py` line 1040: the same hard-coded absolute
directory, no `mkdir`. -/
def kitchenSinkV3Save : SaveSpec :=
  ⟨fun _ => ["Users", "robby", "projects", "xlview", "test"], false⟩

/-! ## The command line of `generate_test_xlsx.py` (lines 424-457) -/

/-- The `--only` choices. -/
inductive OnlyChoice where
  | kitchen
  | large
  | colors
  deriving DecidableEq

/-- Parsed arguments: `--only`, `--rows`, `--cols`, `--manifest-only`. -/
structure Args where
  only : Option OnlyChoice
  rows : ℕ
  cols : ℕ
  manifestOnly : Bool
  deriving DecidableEq

/-- The effects `main` can perform on the output directory. -/
inductive MainAction where
  | genKitchen
  | genColors
  | genLarge (rows cols : ℕ)
  | writeManifest
  deriving DecidableEq

/-- The sequence of effects `main` performs (lines 438-455): with
`--manifest-only` it only refreshes the manifest and returns; otherwise the
selected generators run and the manifest is always updated afterwards. -/
def mainActions (a : Args) : List MainAction :=
  if a.manifestOnly then [MainAction.writeManifest]
  else
    (match a.only with
     | some OnlyChoice.kitchen => [MainAction.genKitchen]
     | some OnlyChoice.large => [MainAction.genLarge a.rows a.cols]
     | some OnlyChoice.colors => [MainAction.genColors]
     | none => [MainAction.genKitchen, MainAction.genColors, MainAction.genLarge a.rows a.cols])
    ++ [MainAction.writeManifest]

/-- The observable state of the output directory: the spreadsheet files (with
byte sizes) and the manifest content, `none` before any write. -/
structure DirState where
  files : List (String × ℕ)
  manifest : Option (List ManifestEntry)
  deriving DecidableEq

/-- Create or overwrite one file in the directory listing. -/
def upsert (files : List (String × ℕ)) (name : String) (size : ℕ) :
    List (String × ℕ) :=
  files.filter (fun p => p.1 ≠ name) ++ [(name, size)]

/-- Interpretation of one effect.  The byte sizes of generated workbooks are
produced by the external openpyxl writer, so they enter as an oracle
`sizeOf`. -/
def applyAction (sizeOf : String → ℕ) : MainAction → DirState → DirState
  | MainAction.genKitchen, d =>
    { d with files := upsert d.files "kitchen_sink.xlsx" (sizeOf "kitchen_sink.xlsx") }
  | MainAction.genColors, d =>
    { d with files := upsert d.files "colors_test.xlsx" (sizeOf "colors_test.xlsx") }
  | MainAction.genLarge r c, d =>
    let n := "large_" ++ toString r ++ "x" ++ toString c ++ ".xlsx"
    { d with files := upsert d.files n (sizeOf n) }
  | MainAction.writeManifest, d =>
    { d with manifest := some (updateManifest d.files) }

/-- Running `main` over the directory state. -/
def runMain (sizeOf : String → ℕ) (a : Args) (d : DirState) : DirState :=
  (mainActions a).foldl (fun s act => applyAction sizeOf act s) d

/-- The `create_colors_only` choice on the colour string itself
(`generate_test_xlsx.py` lines 384-385): the three channel substrings are
parsed with `int(..., 16)` (no exception handler here, so `none` models an
uncaught `ValueError`) and the font colour is black iff `luminance > 128`. -/
def colorsOnlyFontColorStr (color : String) : Option String :=
  match rgbChannels color.data with
  | some (r, g, b) => some (colorsOnlyFontColor r g b)
  | none => none

/-! ## Groundwork: bit lengths and rounding errors -/

theorem bitsF_zero (fuel : ℕ) : bitsF fuel 0 = 0 := by
  cases fuel <;> simp [bitsF]

theorem bitsF_spec (fuel : ℕ) :
    ∀ n, n ≤ fuel → 1 ≤ n → 2 ^ (bitsF fuel n - 1) ≤ n ∧ n < 2 ^ bitsF fuel n := by
  induction fuel with
  | zero => intro n h1 h2; omega
  | succ fuel ih =>
    intro n hle h1
    have hne : ¬ n = 0 := by omega
    rw [bitsF, if_neg hne]
    rcases Nat.lt_or_ge n 2 with h2 | h2
    · have hn1 : n = 1 := by omega
      subst hn1
      simp [bitsF_zero]
    · have hm1 : 1 ≤ n / 2 := by omega
      have hmle : n / 2 ≤ fuel := by omega
      obtain ⟨ihl, ihr⟩ := ih (n / 2) hmle hm1
      have hk1 : 1 ≤ bitsF fuel (n / 2) := by
        by_contra hk
        have h0 : bitsF fuel (n / 2) = 0 := by omega
        rw [h0] at ihr
        omega
      set k := bitsF fuel (n / 2) with hk
      have hpow : 2 ^ (k - 1) * 2 = 2 ^ k := by
        rw [← pow_succ]
        congr 1
        omega
      have hpow2 : 2 ^ k * 2 = 2 ^ (k + 1) := by rw [← pow_succ]
      have hdm := Nat.div_add_mod n 2
      have hmod : n % 2 < 2 := Nat.mod_lt _ (by omega)
      refine ⟨?_, ?_⟩
      · have he : 2 ^ (k + 1 - 1) = 2 ^ k := by congr 1
        rw [he]
        omega
      · omega

theorem bits_spec (n : ℕ) (h : 1 ≤ n) : 2 ^ (bits n - 1) ≤ n ∧ n < 2 ^ bits n :=
  bitsF_spec n n le_rfl h

theorem rdiv_err (a b : ℕ) (hb : 0 < b) :
    |(rdiv a b : ℚ) - (a : ℚ) / b| ≤ 1 / 2 := by
  have hbq : (0 : ℚ) < (b : ℚ) := by exact_mod_cast hb
  have hbne : (b : ℚ) ≠ 0 := ne_of_gt hbq
  have ha : (a : ℚ) = (b : ℚ) * ((a / b : ℕ) : ℚ) + ((a % b : ℕ) : ℚ) := by
    exact_mod_cast (Nat.div_add_mod a b).symm
  have ht : (a : ℚ) / b = ((a / b : ℕ) : ℚ) + ((a % b : ℕ) : ℚ) / b := by
    rw [ha]
    field_simp
    ring
  have hr0 : (0 : ℚ) ≤ ((a % b : ℕ) : ℚ) := by positivity
  have hrb : ((a % b : ℕ) : ℚ) < b := by exact_mod_cast Nat.mod_lt _ hb
  have hfr0 : (0 : ℚ) ≤ ((a % b : ℕ) : ℚ) / b := by positivity
  have hfr1 : ((a % b : ℕ) : ℚ) / b < 1 := by
    rw [div_lt_one hbq]
    exact hrb
  unfold rdiv
  split
  · rename_i h2r
    have hhalf : ((a % b : ℕ) : ℚ) / b < 1 / 2 := by
      rw [div_lt_div_iff hbq (by norm_num)]
      have hc : 2 * ((a % b : ℕ) : ℚ) < b := by exact_mod_cast h2r
      linarith
    rw [abs_sub_le_iff, ht]
    constructor <;> linarith
  · split
    · rename_i hnlt h2r
      have hhalf : 1 / 2 < ((a % b : ℕ) : ℚ) / b := by
        rw [div_lt_div_iff (by norm_num) hbq]
        have hc : (b : ℚ) < 2 * ((a % b : ℕ) : ℚ) := by exact_mod_cast h2r
        linarith
      rw [abs_sub_le_iff, ht]
      push_cast
      constructor <;> linarith
    · rename_i hnlt hngt
      have heq : ((a % b : ℕ) : ℚ) / b = 1 / 2 := by
        have h1 : ¬ 2 * ((a % b : ℕ) : ℚ) < b := by exact_mod_cast hnlt
        have h2 : ¬ (b : ℚ) < 2 * ((a % b : ℕ) : ℚ) := by exact_mod_cast hngt
        rw [div_eq_div_iff hbne (by norm_num : (2:ℚ) ≠ 0)]
        linarith
      split
      · rw [abs_sub_le_iff, ht, heq]
        constructor <;> linarith
      · rw [abs_sub_le_iff, ht, heq]
        push_cast
        constructor <;> linarith

theorem val_mk (m e : ℤ) : (Fp.mk m e).val = (m : ℚ) * (2 : ℚ) ^ e := rfl

theorem two_zpow_pos (k : ℤ) : (0 : ℚ) < (2 : ℚ) ^ k := by positivity

theorem zpow_toNat_cast (k : ℤ) (hk : 0 ≤ k) :
    (((2 : ℤ) ^ k.toNat : ℤ) : ℚ) = (2 : ℚ) ^ k := by
  have h : (k.toNat : ℤ) = k := Int.toNat_of_nonneg hk
  calc (((2 : ℤ) ^ k.toNat : ℤ) : ℚ) = (2 : ℚ) ^ k.toNat := by push_cast; ring
    _ = (2 : ℚ) ^ (k.toNat : ℤ) := (zpow_natCast 2 k.toNat).symm
    _ = (2 : ℚ) ^ k := by rw [h]

theorem round53_err (m e : ℤ) :
    |(round53 m e).val - (m : ℚ) * (2 : ℚ) ^ e| ≤ |(m : ℚ) * (2 : ℚ) ^ e| / 2 ^ 53 := by
  unfold round53
  split
  · rw [val_mk, sub_self, abs_zero]
    positivity
  · rename_i h
    have h53 : 2 ^ 53 ≤ m.natAbs := not_lt.mp h
    have ha1 : 1 ≤ m.natAbs := le_trans (by norm_num) h53
    obtain ⟨hbl, hbu⟩ := bits_spec m.natAbs ha1
    have hk54 : 54 ≤ bits m.natAbs := by
      by_contra hc
      have hle : bits m.natAbs ≤ 53 := by omega
      have : m.natAbs < 2 ^ 53 :=
        lt_of_lt_of_le hbu (pow_le_pow_right (by norm_num) hle)
      omega
    set a : ℕ := m.natAbs with hadef
    set s : ℕ := bits a - 53 with hsdef
    have hsk : bits a = s + 53 := by omega
    have hbl' : 2 ^ (52 + s) ≤ a := by
      have : bits a - 1 = 52 + s := by omega
      rwa [this] at hbl
    set m2 : ℕ := rdiv a (2 ^ s) with hm2def
    have hrd := rdiv_err a (2 ^ s) (by positivity)
    set S : ℚ := (2 : ℚ) ^ (s : ℕ) with hSdef
    set E : ℚ := (2 : ℚ) ^ e with hEdef
    have hS0 : (0 : ℚ) < S := by positivity
    have hE0 : (0 : ℚ) < E := by positivity
    have hcastS : ((2 ^ s : ℕ) : ℚ) = S := by push_cast; rfl
    have hSE : (2 : ℚ) ^ (e + (s : ℤ)) = E * S := by
      rw [zpow_add₀ (two_ne_zero), zpow_natCast]
    have hrd' : |(m2 : ℚ) - (a : ℚ) / S| ≤ 1 / 2 := by
      rw [← hcastS]
      exact hrd
    have key : |(m2 : ℚ) * (E * S) - (a : ℚ) * E| ≤ (a : ℚ) * E / 2 ^ 53 := by
      have hmul : |(m2 : ℚ) * (E * S) - (a : ℚ) * E| =
          |(m2 : ℚ) - (a : ℚ) / S| * (S * E) := by
        rw [← abs_of_pos (mul_pos hS0 hE0), ← abs_mul]
        congr 1
        field_simp
        ring
      rw [hmul]
      have step1 : |(m2 : ℚ) - (a : ℚ) / S| * (S * E) ≤ (1 / 2) * (S * E) :=
        mul_le_mul_of_nonneg_right hrd' (le_of_lt (mul_pos hS0 hE0))
      have hpow : ((2 ^ (52 + s) : ℕ) : ℚ) = 2 ^ 52 * S := by
        push_cast
        rw [pow_add]
      have step2 : (1 / 2) * (S * E) ≤ (a : ℚ) * E / 2 ^ 53 := by
        have hca : (2 : ℚ) ^ 52 * S ≤ (a : ℚ) := by
          rw [← hpow]
          exact_mod_cast hbl'
        rw [le_div_iff (by norm_num : (0:ℚ) < 2 ^ 53)]
        have hmm := mul_le_mul_of_nonneg_right hca (le_of_lt hE0)
        nlinarith [hmm]
      linarith
    have habs : |(m : ℚ)| = (a : ℚ) := by
      rw [hadef]
      rw [← Int.cast_abs]
      congr 1
      exact Int.abs_eq_natAbs m
    have hrhs : |(m : ℚ) * E| = (a : ℚ) * E := by
      rw [abs_mul, habs, abs_of_pos hE0]
    rw [hrhs]
    have hse : ((bits a : ℤ)) - 53 = (s : ℤ) := by omega
    split
    · rename_i hneg
      have hmval : (m : ℚ) = -(a : ℚ) := by
        have : m = -(a : ℤ) := by omega
        rw [this]
        push_cast
        ring
      rw [val_mk]
      push_cast
      rw [hse, hSE, hmval]
      calc |(-(m2 : ℚ)) * (E * S) - (-(a : ℚ)) * E|
          = |(m2 : ℚ) * (E * S) - (a : ℚ) * E| := by
            rw [← abs_neg]
            congr 1
            ring
        _ ≤ (a : ℚ) * E / 2 ^ 53 := key
    · rename_i hneg
      have hmval : (m : ℚ) = (a : ℚ) := by
        have : m = (a : ℤ) := by omega
        rw [this]
        push_cast
        ring
      rw [val_mk]
      push_cast
      rw [hse, hSE, hmval]
      exact key

theorem qpow_toNat (k : ℤ) (hk : 0 ≤ k) : (2 : ℚ) ^ k.toNat = (2 : ℚ) ^ k := by
  rw [← zpow_natCast]
  congr 1
  omega

theorem fmul_err (x y : Fp) :
    |(fmul x y).val - x.val * y.val| ≤ |x.val * y.val| / 2 ^ 53 := by
  have hx : x.val * y.val = ((x.m * y.m : ℤ) : ℚ) * (2 : ℚ) ^ (x.e + y.e) := by
    rw [Fp.val, Fp.val, zpow_add₀ (two_ne_zero)]
    push_cast
    ring
  rw [fmul, hx]
  exact round53_err (x.m * y.m) (x.e + y.e)

theorem fadd_err (x y : Fp) :
    |(fadd x y).val - (x.val + y.val)| ≤ |x.val + y.val| / 2 ^ 53 := by
  rw [fadd]
  split
  · rename_i hle
    have hx : x.val + y.val =
        ((x.m + y.m * 2 ^ (y.e - x.e).toNat : ℤ) : ℚ) * (2 : ℚ) ^ x.e := by
      rw [Fp.val, Fp.val]
      push_cast
      rw [qpow_toNat (y.e - x.e) (by omega), add_mul, mul_assoc,
        ← zpow_add₀ (two_ne_zero : (2:ℚ) ≠ 0)]
      have he : y.e - x.e + x.e = y.e := by omega
      rw [he]
    rw [hx]
    exact round53_err _ _
  · rename_i hgt
    have hx : x.val + y.val =
        ((x.m * 2 ^ (x.e - y.e).toNat + y.m : ℤ) : ℚ) * (2 : ℚ) ^ y.e := by
      rw [Fp.val, Fp.val]
      push_cast
      rw [qpow_toNat (x.e - y.e) (by omega), add_mul, mul_assoc,
        ← zpow_add₀ (two_ne_zero : (2:ℚ) ≠ 0)]
      have he : x.e - y.e + y.e = x.e := by omega
      rw [he]
    rw [hx]
    exact round53_err _ _

theorem intF_val (n : ℤ) (h : n.natAbs < 2 ^ 53) : (intF n).val = (n : ℚ) := by
  rw [intF, round53, if_pos h, val_mk, zpow_zero, mul_one]

theorem divFexp_spec (a b : ℕ) (ha : 1 ≤ a) (hb : 1 ≤ b) :
    (2 : ℚ) ^ divFexp a b ≤ (a : ℚ) / b ∧ (a : ℚ) / b < (2 : ℚ) ^ (divFexp a b + 1) := by
  obtain ⟨hal, hau⟩ := bits_spec a ha
  obtain ⟨hbl, hbu⟩ := bits_spec b hb
  have ha1 : 1 ≤ bits a := by
    by_contra hc
    have h0 : bits a = 0 := by omega
    rw [h0] at hau
    omega
  have hb1 : 1 ≤ bits b := by
    by_contra hc
    have h0 : bits b = 0 := by omega
    rw [h0] at hbu
    omega
  have haq : (0 : ℚ) < (a : ℚ) := by exact_mod_cast ha
  have hbq : (0 : ℚ) < (b : ℚ) := by exact_mod_cast hb
  have hsub : ∀ p q : ℕ, (2 : ℚ) ^ ((p : ℤ) - q) = (2 : ℚ) ^ (p : ℕ) / (2 : ℚ) ^ (q : ℕ) := by
    intro p q
    rw [zpow_sub₀ (two_ne_zero), zpow_natCast, zpow_natCast]
  have halq : (2 : ℚ) ^ (bits a - 1 : ℕ) ≤ (a : ℚ) := by exact_mod_cast hal
  have hauq : (a : ℚ) < (2 : ℚ) ^ (bits a : ℕ) := by exact_mod_cast hau
  have hblq : (2 : ℚ) ^ (bits b - 1 : ℕ) ≤ (b : ℚ) := by exact_mod_cast hbl
  have hbuq : (b : ℚ) < (2 : ℚ) ^ (bits b : ℕ) := by exact_mod_cast hbu
  rw [divFexp]
  split
  · rename_i hcond
    have hcond' : (2 : ℚ) ^ (bits a : ℕ) * (b : ℚ) ≤ (2 : ℚ) ^ (bits b : ℕ) * (a : ℚ) := by
      exact_mod_cast hcond
    constructor
    · rw [hsub]
      rw [div_le_div_iff (by positivity) hbq]
      linarith
    · have h1 : ((bits a : ℤ) - bits b) + 1 = ((bits a : ℤ)) - ((bits b - 1 : ℕ) : ℤ) := by
        omega
      rw [h1, hsub]
      rw [div_lt_div_iff hbq (by positivity)]
      nlinarith
  · rename_i hcond
    have hcond' : (2 : ℚ) ^ (bits b : ℕ) * (a : ℚ) < (2 : ℚ) ^ (bits a : ℕ) * (b : ℚ) := by
      exact_mod_cast (Nat.lt_of_not_le hcond)
    constructor
    · have h1 : ((bits a : ℤ)) - bits b - 1 = ((bits a - 1 : ℕ) : ℤ) - ((bits b : ℕ) : ℤ) := by
        omega
      rw [h1, hsub]
      rw [div_le_div_iff (by positivity) hbq]
      nlinarith
    · have h1 : ((bits a : ℤ)) - bits b - 1 + 1 = ((bits a : ℤ)) - bits b := by ring
      rw [h1, hsub]
      rw [div_lt_div_iff hbq (by positivity)]
      linarith

theorem divFposAux_err (a b : ℕ) (e : ℤ) (ha : 1 ≤ a) (hb : 1 ≤ b)
    (hel : (2 : ℚ) ^ e ≤ (a : ℚ) / b) :
    |(divFposAux a b e).val - (a : ℚ) / b| ≤ ((a : ℚ) / b) / 2 ^ 53 := by
  have haq : (0 : ℚ) < (a : ℚ) := by exact_mod_cast ha
  have hbq : (0 : ℚ) < (b : ℚ) := by exact_mod_cast hb
  have hq0 : (0 : ℚ) < (a : ℚ) / b := by positivity
  have hexp1 : (2 : ℚ) ^ (52 - e) * (2 : ℚ) ^ (e - 52) = 1 := by
    rw [← zpow_add₀ (two_ne_zero : (2:ℚ) ≠ 0)]
    have he : 52 - e + (e - 52) = 0 := by ring
    rw [he, zpow_zero]
  have hm : |(((if 0 ≤ 52 - e then rdiv (a * 2 ^ (52 - e).toNat) b
      else rdiv a (b * 2 ^ (e - 52).toNat) : ℕ)) : ℚ) -
      ((a : ℚ) / b) * (2 : ℚ) ^ (52 - e)| ≤ 1 / 2 := by
    split
    · rename_i hpos
      have h1 := rdiv_err (a * 2 ^ (52 - e).toNat) b hb
      have h2 : ((a * 2 ^ (52 - e).toNat : ℕ) : ℚ) / b =
          ((a : ℚ) / b) * (2 : ℚ) ^ (52 - e) := by
        push_cast
        rw [qpow_toNat (52 - e) (by omega)]
        ring
      rw [h2] at h1
      exact h1
    · rename_i hneg
      have hbp : 0 < b * 2 ^ (e - 52).toNat := by positivity
      have h1 := rdiv_err a (b * 2 ^ (e - 52).toNat) hbp
      have h2 : (a : ℚ) / ((b * 2 ^ (e - 52).toNat : ℕ) : ℚ) =
          ((a : ℚ) / b) * (2 : ℚ) ^ (52 - e) := by
        push_cast
        rw [qpow_toNat (e - 52) (by omega)]
        rw [div_mul_eq_div_div, div_eq_mul_inv ((a:ℚ)/b), ← zpow_neg]
        have he : -(e - 52) = 52 - e := by ring
        rw [he]
      rw [h2] at h1
      exact h1
  rw [divFposAux, val_mk]
  set m2q : ℚ := (((if 0 ≤ 52 - e then rdiv (a * 2 ^ (52 - e).toNat) b
      else rdiv a (b * 2 ^ (e - 52).toNat) : ℕ)) : ℚ) with hm2q
  have hcast : (((if 0 ≤ 52 - e then rdiv (a * 2 ^ (52 - e).toNat) b
      else rdiv a (b * 2 ^ (e - 52).toNat) : ℕ) : ℤ) : ℚ) = m2q := by
    rw [hm2q]
    push_cast
    ring
  rw [hcast]
  have hE : (0 : ℚ) < (2 : ℚ) ^ (e - 52) := two_zpow_pos _
  have hid : m2q * (2 : ℚ) ^ (e - 52) - (a : ℚ) / b =
      (m2q - ((a : ℚ) / b) * (2 : ℚ) ^ (52 - e)) * (2 : ℚ) ^ (e - 52) := by
    have hexpand : (m2q - ((a : ℚ) / b) * (2 : ℚ) ^ (52 - e)) * (2 : ℚ) ^ (e - 52) =
        m2q * (2 : ℚ) ^ (e - 52) -
          ((a : ℚ) / b) * ((2 : ℚ) ^ (52 - e) * (2 : ℚ) ^ (e - 52)) := by ring
    rw [hexpand, hexp1, mul_one]
  rw [hid, abs_mul, abs_of_pos hE]
  have step1 : |m2q - ((a : ℚ) / b) * (2 : ℚ) ^ (52 - e)| * (2 : ℚ) ^ (e - 52) ≤
      (1 / 2) * (2 : ℚ) ^ (e - 52) :=
    mul_le_mul_of_nonneg_right hm (le_of_lt hE)
  have step2 : (1 / 2) * (2 : ℚ) ^ (e - 52) ≤ ((a : ℚ) / b) / 2 ^ 53 := by
    rw [le_div_iff (by norm_num : (0:ℚ) < 2 ^ 53)]
    have h2 : (2 : ℚ) ^ (e - 52) * (2 : ℚ) ^ (52 : ℤ) = (2 : ℚ) ^ e := by
      rw [← zpow_add₀ (two_ne_zero : (2:ℚ) ≠ 0)]
      have he : e - 52 + 52 = e := by ring
      rw [he]
    have h3 : (2 : ℚ) ^ (52 : ℤ) = (2 : ℚ) ^ (52 : ℕ) := by
      rw [← zpow_natCast]
      norm_num
    nlinarith [hel, two_zpow_pos (e - 52)]
  linarith

theorem divFpos_err (a b : ℕ) (ha : 1 ≤ a) (hb : 1 ≤ b) :
    |(divFpos a b).val - (a : ℚ) / b| ≤ ((a : ℚ) / b) / 2 ^ 53 :=
  divFposAux_err a b (divFexp a b) ha hb (divFexp_spec a b ha hb).1

theorem close3 {x y z b1 b2 : ℚ} (h1 : |x - y| ≤ b1) (h2 : |y - z| ≤ b2) :
    |x - z| ≤ b1 + b2 := by
  have h := abs_sub_le x y z
  linarith

theorem close_pair {a b c d : ℚ} {b1 b2 : ℚ} (h1 : |a - c| ≤ b1) (h2 : |b - d| ≤ b2) :
    |(a + b) - (c + d)| ≤ b1 + b2 := by
  have he : (a + b) - (c + d) = (a - c) + (b - d) := by ring
  rw [he]
  have h := abs_add (a - c) (b - d)
  linarith

theorem prodStep (w : Fp) (c : ℚ) (n : ℤ) (hw : |w.val - c| ≤ 1 / 2 ^ 53)
    (hc0 : 0 ≤ c) (hc1 : c ≤ 1) (hn0 : 0 ≤ n) (hn : n ≤ 255) :
    |(fmul w (intF n)).val - c * n| ≤ 512 / 2 ^ 53 ∧ |(fmul w (intF n)).val| ≤ 256 := by
  have hnq0 : (0 : ℚ) ≤ (n : ℚ) := by exact_mod_cast hn0
  have hnq : (n : ℚ) ≤ 255 := by exact_mod_cast hn
  have hfit : n.natAbs < 2 ^ 53 := by
    have h53 : (255 : ℤ) < 2 ^ 53 := by norm_num
    omega
  have hiv : (intF n).val = (n : ℚ) := intF_val n hfit
  have h1 := fmul_err w (intF n)
  rw [hiv] at h1
  have hwa : |w.val| ≤ 1 + 1 / 2 ^ 53 := by
    have h := abs_sub_abs_le_abs_sub w.val c
    have hca : |c| = c := abs_of_nonneg hc0
    linarith
  have hprod : |w.val * n| ≤ 256 := by
    rw [abs_mul, abs_of_nonneg hnq0]
    have hmm : |w.val| * (n : ℚ) ≤ (1 + 1 / 2 ^ 53) * 255 :=
      mul_le_mul hwa hnq hnq0 (by positivity)
    have : ((1 : ℚ) + 1 / 2 ^ 53) * 255 ≤ 256 := by norm_num
    linarith
  have h2 : |(fmul w (intF n)).val - w.val * n| ≤ 256 / 2 ^ 53 := by
    have : |w.val * n| / 2 ^ 53 ≤ 256 / 2 ^ 53 := by gcongr
    linarith
  have h3 : |w.val * n - c * n| ≤ 255 / 2 ^ 53 := by
    rw [← sub_mul, abs_mul, abs_of_nonneg hnq0]
    have hmm : |w.val - c| * (n : ℚ) ≤ (1 / 2 ^ 53) * 255 :=
      mul_le_mul hw hnq hnq0 (by positivity)
    linarith
  constructor
  · have := close3 h2 h3
    linarith
  · have htot : |(fmul w (intF n)).val - c * n| ≤ 511 / 2 ^ 53 := by
      have := close3 h2 h3
      linarith
    have hcn : |c * n| ≤ 255 := by
      rw [abs_mul, abs_of_nonneg hc0, abs_of_nonneg hnq0]
      have hmm : c * (n : ℚ) ≤ 1 * 255 := mul_le_mul hc1 hnq hnq0 (by norm_num)
      linarith
    have h := abs_sub_abs_le_abs_sub (fmul w (intF n)).val (c * n)
    have : (511 : ℚ) / 2 ^ 53 ≤ 1 := by norm_num
    linarith

theorem lit_err (a : ℕ) (ha : 1 ≤ a) (hle : a ≤ 1000) :
    |(divFpos a 1000).val - (a : ℚ) / 1000| ≤ 1 / 2 ^ 53 := by
  have h := divFpos_err a 1000 ha (by norm_num)
  have hq : ((a : ℚ) / 1000) / 2 ^ 53 ≤ 1 / 2 ^ 53 := by
    have haq : (a : ℚ) ≤ 1000 := by exact_mod_cast hle
    have h1000 : (a : ℚ) / 1000 ≤ 1 := by
      rw [div_le_one (by norm_num : (0:ℚ) < 1000)]
      linarith
    gcongr
  linarith

theorem lum_err (r g b : ℤ) (hr0 : 0 ≤ r) (hr : r ≤ 255) (hg0 : 0 ≤ g)
    (hg : g ≤ 255) (hb0 : 0 ≤ b) (hbu : b ≤ 255) :
    |(luminanceV2 r g b).val - (299 * (r : ℚ) + 587 * (g : ℚ) + 114 * (b : ℚ)) / 1000|
      ≤ 1 / 2 ^ 40 := by
  have h299 : |lit299.val - 299 / 1000| ≤ 1 / 2 ^ 53 := by
    have h := lit_err 299 (by norm_num) (by norm_num)
    unfold lit299
    push_cast at h
    exact h
  have h587 : |lit587.val - 587 / 1000| ≤ 1 / 2 ^ 53 := by
    have h := lit_err 587 (by norm_num) (by norm_num)
    unfold lit587
    push_cast at h
    exact h
  have h114 : |lit114.val - 114 / 1000| ≤ 1 / 2 ^ 53 := by
    have h := lit_err 114 (by norm_num) (by norm_num)
    unfold lit114
    push_cast at h
    exact h
  obtain ⟨hp1, hb1⟩ := prodStep lit299 (299 / 1000) r h299 (by norm_num) (by norm_num) hr0 hr
  obtain ⟨hp2, hb2⟩ := prodStep lit587 (587 / 1000) g h587 (by norm_num) (by norm_num) hg0 hg
  obtain ⟨hp3, hb3⟩ := prodStep lit114 (114 / 1000) b h114 (by norm_num) (by norm_num) hb0 hbu
  set P1 := fmul lit299 (intF r) with hP1
  set P2 := fmul lit587 (intF g) with hP2
  set P3 := fmul lit114 (intF b) with hP3
  set S1 := fadd P1 P2 with hS1
  have ha1 := fadd_err P1 P2
  have habs12 : |P1.val + P2.val| ≤ 512 := by
    have h := abs_add P1.val P2.val
    linarith
  have ha1' : |S1.val - (P1.val + P2.val)| ≤ 512 / 2 ^ 53 := by
    have hd : |P1.val + P2.val| / 2 ^ 53 ≤ 512 / 2 ^ 53 := by gcongr
    linarith
  have hpair12 : |(P1.val + P2.val) - (299 / 1000 * (r : ℚ) + 587 / 1000 * (g : ℚ))|
      ≤ 512 / 2 ^ 53 + 512 / 2 ^ 53 := close_pair hp1 hp2
  have hS1c : |S1.val - (299 / 1000 * (r : ℚ) + 587 / 1000 * (g : ℚ))|
      ≤ 1536 / 2 ^ 53 := by
    have := close3 ha1' hpair12
    linarith
  have habsS1 : |S1.val| ≤ 256 := by
    have hcc : |299 / 1000 * (r : ℚ) + 587 / 1000 * (g : ℚ)| ≤ 226 := by
      have hrq0 : (0 : ℚ) ≤ (r : ℚ) := by exact_mod_cast hr0
      have hrq : (r : ℚ) ≤ 255 := by exact_mod_cast hr
      have hgq0 : (0 : ℚ) ≤ (g : ℚ) := by exact_mod_cast hg0
      have hgq : (g : ℚ) ≤ 255 := by exact_mod_cast hg
      rw [abs_of_nonneg (by positivity)]
      nlinarith
    have h := abs_sub_abs_le_abs_sub S1.val
      (299 / 1000 * (r : ℚ) + 587 / 1000 * (g : ℚ))
    have : (1536 : ℚ) / 2 ^ 53 ≤ 1 := by norm_num
    linarith
  have ha2 := fadd_err S1 P3
  have habs13 : |S1.val + P3.val| ≤ 512 := by
    have h := abs_add S1.val P3.val
    linarith
  have ha2' : |(fadd S1 P3).val - (S1.val + P3.val)| ≤ 512 / 2 ^ 53 := by
    have hd : |S1.val + P3.val| / 2 ^ 53 ≤ 512 / 2 ^ 53 := by gcongr
    linarith
  have hpair13 : |(S1.val + P3.val) -
      ((299 / 1000 * (r : ℚ) + 587 / 1000 * (g : ℚ)) + 114 / 1000 * (b : ℚ))|
      ≤ 1536 / 2 ^ 53 + 512 / 2 ^ 53 := close_pair hS1c hp3
  have htot := close3 ha2' hpair13
  have hfin : |(fadd S1 P3).val -
      ((299 / 1000 * (r : ℚ) + 587 / 1000 * (g : ℚ)) + 114 / 1000 * (b : ℚ))|
      ≤ 1 / 2 ^ 40 := by
    have : (512 : ℚ) / 2 ^ 53 + (1536 / 2 ^ 53 + 512 / 2 ^ 53) ≤ 1 / 2 ^ 40 := by norm_num
    linarith
  have hrew : (299 * (r : ℚ) + 587 * (g : ℚ) + 114 * (b : ℚ)) / 1000 =
      (299 / 1000 * (r : ℚ) + 587 / 1000 * (g : ℚ)) + 114 / 1000 * (b : ℚ) := by ring
  have hdef : luminanceV2 r g b = fadd S1 P3 := rfl
  rw [hdef, hrew]
  exact hfin

theorem fltInt_iff (x : Fp) (c : ℤ) : fltInt x c = true ↔ x.val < (c : ℚ) := by
  rw [fltInt]
  split
  · rename_i he
    rw [decide_eq_true_eq]
    have hv : x.val = ((x.m * 2 ^ x.e.toNat : ℤ) : ℚ) := by
      rw [Fp.val, ← zpow_toNat_cast x.e he]
      push_cast
      ring
    rw [hv]
    exact_mod_cast Iff.rfl
  · rename_i he
    rw [decide_eq_true_eq]
    have hpos : (0 : ℚ) < (2 : ℚ) ^ (-x.e) := two_zpow_pos _
    have hv : x.val * (2 : ℚ) ^ (-x.e) = (x.m : ℚ) := by
      rw [Fp.val, mul_assoc, ← zpow_add₀ (two_ne_zero : (2:ℚ) ≠ 0)]
      have hz : x.e + -x.e = 0 := by ring
      rw [hz, zpow_zero, mul_one]
    have hc : (c : ℚ) * (2 : ℚ) ^ (-x.e) = (((c * 2 ^ (-x.e).toNat : ℤ)) : ℚ) := by
      rw [← zpow_toNat_cast (-x.e) (by omega)]
      push_cast
      ring
    constructor
    · intro h
      have h' : (x.m : ℚ) < ((c * 2 ^ (-x.e).toNat : ℤ) : ℚ) := by exact_mod_cast h
      rw [← hv, ← hc] at h'
      exact lt_of_mul_lt_mul_right h' (le_of_lt hpos)
    · intro h
      have h' : x.val * (2 : ℚ) ^ (-x.e) < (c : ℚ) * (2 : ℚ) ^ (-x.e) :=
        mul_lt_mul_of_pos_right h hpos
      rw [hv, hc] at h'
      exact_mod_cast h'

theorem fgtInt_iff (x : Fp) (c : ℤ) : fgtInt x c = true ↔ (c : ℚ) < x.val := by
  rw [fgtInt]
  split
  · rename_i he
    rw [decide_eq_true_eq]
    have hv : x.val = ((x.m * 2 ^ x.e.toNat : ℤ) : ℚ) := by
      rw [Fp.val, ← zpow_toNat_cast x.e he]
      push_cast
      ring
    rw [hv]
    exact_mod_cast Iff.rfl
  · rename_i he
    rw [decide_eq_true_eq]
    have hpos : (0 : ℚ) < (2 : ℚ) ^ (-x.e) := two_zpow_pos _
    have hv : x.val * (2 : ℚ) ^ (-x.e) = (x.m : ℚ) := by
      rw [Fp.val, mul_assoc, ← zpow_add₀ (two_ne_zero : (2:ℚ) ≠ 0)]
      have hz : x.e + -x.e = 0 := by ring
      rw [hz, zpow_zero, mul_one]
    have hc : (c : ℚ) * (2 : ℚ) ^ (-x.e) = (((c * 2 ^ (-x.e).toNat : ℤ)) : ℚ) := by
      rw [← zpow_toNat_cast (-x.e) (by omega)]
      push_cast
      ring
    constructor
    · intro h
      have h' : ((c * 2 ^ (-x.e).toNat : ℤ) : ℚ) < (x.m : ℚ) := by exact_mod_cast h
      rw [← hv, ← hc] at h'
      exact lt_of_mul_lt_mul_right h' (le_of_lt hpos)
    · intro h
      have h' : (c : ℚ) * (2 : ℚ) ^ (-x.e) < x.val * (2 : ℚ) ^ (-x.e) :=
        mul_lt_mul_of_pos_right h hpos
      rw [hv, hc] at h'
      exact_mod_cast h'

theorem luminanceColors_eq (r g b : ℤ) : luminanceColors r g b = luminanceV2 r g b := by
  unfold luminanceColors luminanceV2
  have hswap : ∀ x y : Fp, fmul x y = fmul y x := by
    intro x y
    unfold fmul
    rw [Int.mul_comm, Int.add_comm]
  rw [hswap (intF r) lit299, hswap (intF g) lit587, hswap (intF b) lit114]

theorem v2dark_char (r g b : ℕ) (hr : r ≤ 255) (hg : g ≤ 255) (hbu : b ≤ 255)
    (hne : 299 * r + 587 * g + 114 * b ≠ 128000) :
    (fltInt (luminanceV2 (r : ℤ) (g : ℤ) (b : ℤ)) 128 = true ↔
      299 * r + 587 * g + 114 * b < 128000) := by
  have herr := lum_err (r : ℤ) (g : ℤ) (b : ℤ) (by positivity)
    (by exact_mod_cast hr) (by positivity) (by exact_mod_cast hg)
    (by positivity) (by exact_mod_cast hbu)
  rw [abs_sub_le_iff] at herr
  obtain ⟨h1, h2⟩ := herr
  have hSnum : (299 * (((r : ℤ)) : ℚ) + 587 * (((g : ℤ)) : ℚ) + 114 * (((b : ℤ)) : ℚ)) =
      ((299 * r + 587 * g + 114 * b : ℕ) : ℚ) := by
    push_cast
    ring
  rw [hSnum] at h1 h2
  rw [fltInt_iff]
  have hc128 : (((128 : ℤ)) : ℚ) = (128 : ℚ) := by norm_num
  rw [hc128]
  rcases Nat.lt_or_ge (299 * r + 587 * g + 114 * b) 128000 with hlt | hge
  · have hle : 299 * r + 587 * g + 114 * b ≤ 127999 := by omega
    have hq : ((299 * r + 587 * g + 114 * b : ℕ) : ℚ) ≤ 127999 := by exact_mod_cast hle
    have hbound : (127999 : ℚ) / 1000 + 1 / 2 ^ 40 < 128 := by norm_num
    have hL : (luminanceV2 (r : ℤ) (g : ℤ) (b : ℤ)).val < 128 := by
      have hdiv : ((299 * r + 587 * g + 114 * b : ℕ) : ℚ) / 1000 ≤ (127999 : ℚ) / 1000 := by
        gcongr
      linarith
    exact iff_of_true hL hlt
  · have hgt : 128000 < 299 * r + 587 * g + 114 * b := by omega
    have hq : (128001 : ℚ) ≤ ((299 * r + 587 * g + 114 * b : ℕ) : ℚ) := by
      exact_mod_cast hgt
    have hbound : (128 : ℚ) < 128001 / 1000 - 1 / 2 ^ 40 := by norm_num
    have hL : (128 : ℚ) < (luminanceV2 (r : ℤ) (g : ℤ) (b : ℤ)).val := by
      have hdiv : (128001 : ℚ) / 1000 ≤ ((299 * r + 587 * g + 114 * b : ℕ) : ℚ) / 1000 := by
        gcongr
      linarith
    exact iff_of_false (not_lt.mpr (le_of_lt hL)) (by omega)

theorem colorsWhite_char (r g b : ℕ) (hr : r ≤ 255) (hg : g ≤ 255) (hbu : b ≤ 255)
    (hne : 299 * r + 587 * g + 114 * b ≠ 128000) :
    (colorsOnlyFontColor (r : ℤ) (g : ℤ) (b : ℤ) = "FFFFFF" ↔
      299 * r + 587 * g + 114 * b < 128000) := by
  have herr := lum_err (r : ℤ) (g : ℤ) (b : ℤ) (by positivity)
    (by exact_mod_cast hr) (by positivity) (by exact_mod_cast hg)
    (by positivity) (by exact_mod_cast hbu)
  rw [abs_sub_le_iff] at herr
  obtain ⟨h1, h2⟩ := herr
  have hSnum : (299 * (((r : ℤ)) : ℚ) + 587 * (((g : ℤ)) : ℚ) + 114 * (((b : ℤ)) : ℚ)) =
      ((299 * r + 587 * g + 114 * b : ℕ) : ℚ) := by
    push_cast
    ring
  rw [hSnum] at h1 h2
  rw [colorsOnlyFontColor, luminanceColors_eq]
  rcases Nat.lt_or_ge (299 * r + 587 * g + 114 * b) 128000 with hlt | hge
  · have hle : 299 * r + 587 * g + 114 * b ≤ 127999 := by omega
    have hq : ((299 * r + 587 * g + 114 * b : ℕ) : ℚ) ≤ 127999 := by exact_mod_cast hle
    have hbound : (127999 : ℚ) / 1000 + 1 / 2 ^ 40 < 128 := by norm_num
    have hL : (luminanceV2 (r : ℤ) (g : ℤ) (b : ℤ)).val < 128 := by
      have hdiv : ((299 * r + 587 * g + 114 * b : ℕ) : ℚ) / 1000 ≤ (127999 : ℚ) / 1000 := by
        gcongr
      linarith
    have hgf : ¬ (fgtInt (luminanceV2 (r : ℤ) (g : ℤ) (b : ℤ)) 128 = true) := by
      rw [fgtInt_iff]
      push_cast
      linarith
    rw [if_neg hgf]
    exact iff_of_true rfl hlt
  · have hgt : 128000 < 299 * r + 587 * g + 114 * b := by omega
    have hq : (128001 : ℚ) ≤ ((299 * r + 587 * g + 114 * b : ℕ) : ℚ) := by
      exact_mod_cast hgt
    have hbound : (128 : ℚ) < 128001 / 1000 - 1 / 2 ^ 40 := by norm_num
    have hL : (128 : ℚ) < (luminanceV2 (r : ℤ) (g : ℤ) (b : ℤ)).val := by
      have hdiv : (128001 : ℚ) / 1000 ≤ ((299 * r + 587 * g + 114 * b : ℕ) : ℚ) / 1000 := by
        gcongr
      linarith
    have hgf : fgtInt (luminanceV2 (r : ℤ) (g : ℤ) (b : ℤ)) 128 = true := by
      rw [fgtInt_iff]
      push_cast
      linarith
    rw [if_pos hgf]
    refine iff_of_false ?_ (by omega)
    decide

theorem hexVal_facts (c : Char) (d : ℕ) (h : hexVal c = some d) :
    d ≤ 15 ∧ isPyWs c = false ∧ c.toNat ≠ 43 ∧ c.toNat ≠ 45 ∧ c.toNat ≠ 95 ∧
      c.toNat ≠ 120 ∧ c.toNat ≠ 88 := by
  rw [hexVal] at h
  split at h
  · rename_i hc
    injection h with hd
    subst hd
    refine ⟨by omega, ?_, by omega, by omega, by omega, by omega, by omega⟩
    rw [isPyWs, decide_eq_false_iff_not]
    omega
  · split at h
    · rename_i hc1 hc
      injection h with hd
      subst hd
      refine ⟨by omega, ?_, by omega, by omega, by omega, by omega, by omega⟩
      rw [isPyWs, decide_eq_false_iff_not]
      omega
    · split at h
      · rename_i hc1 hc2 hc
        injection h with hd
        subst hd
        refine ⟨by omega, ?_, by omega, by omega, by omega, by omega, by omega⟩
        rw [isPyWs, decide_eq_false_iff_not]
        omega
      · exact absurd h (by simp)

theorem pyIntHex16_pair (c1 c2 : Char) (d1 d2 : ℕ)
    (h1 : hexVal c1 = some d1) (h2 : hexVal c2 = some d2) :
    pyIntHex16 ⟨[c1, c2]⟩ = some ((16 * d1 + d2 : ℕ) : ℤ) := by
  obtain ⟨hd1, hws1, hp1, hm1, hu1, hx1, hX1⟩ := hexVal_facts c1 d1 h1
  obtain ⟨hd2, hws2, hp2, hm2, hu2, hx2, hX2⟩ := hexVal_facts c2 d2 h2
  have hstrip : stripPyWs [c1, c2] = [c1, c2] := by
    simp [stripPyWs, List.dropWhile, hws1, hws2]
  have hmark : dropHexMark [c1, c2] = [c1, c2] := by
    rw [dropHexMark]
    rw [if_neg]
    omega
  have hdig : hexDigits [c1, c2] = some (16 * d1 + d2) := by
    simp [hexDigits, hexDigitsRest, h1, h2, hu2]
  have hnat : hexNatPart [c1, c2] = some ((16 * d1 + d2 : ℕ) : ℤ) := by
    simp [hexNatPart, hmark, hdig]
  show pyIntHex16 (String.mk [c1, c2]) = some ((16 * d1 + d2 : ℕ) : ℤ)
  rw [pyIntHex16]
  have hdata : (String.mk [c1, c2]).data = [c1, c2] := rfl
  rw [hdata, hstrip]
  simp [hp1, hm1, hnat]

theorem rgbChannels_hex (c1 c2 c3 c4 c5 c6 : Char) (d1 d2 d3 d4 d5 d6 : ℕ)
    (h1 : hexVal c1 = some d1) (h2 : hexVal c2 = some d2)
    (h3 : hexVal c3 = some d3) (h4 : hexVal c4 = some d4)
    (h5 : hexVal c5 = some d5) (h6 : hexVal c6 = some d6) :
    rgbChannels [c1, c2, c3, c4, c5, c6] =
      some (((16 * d1 + d2 : ℕ) : ℤ), ((16 * d3 + d4 : ℕ) : ℤ),
        ((16 * d5 + d6 : ℕ) : ℤ)) := by
  have hs1 : pySlice 0 2 [c1, c2, c3, c4, c5, c6] = [c1, c2] := rfl
  have hs2 : pySlice 2 4 [c1, c2, c3, c4, c5, c6] = [c3, c4] := rfl
  have hs3 : pySlice 4 6 [c1, c2, c3, c4, c5, c6] = [c5, c6] := rfl
  rw [rgbChannels, hs1, hs2, hs3,
    pyIntHex16_pair c1 c2 d1 d2 h1 h2,
    pyIntHex16_pair c3 c4 d3 d4 h3 h4,
    pyIntHex16_pair c5 c6 d5 d6 h5 h6]

theorem rgbLast6_six (c1 c2 c3 c4 c5 c6 : Char) :
    rgbLast6 ⟨[c1, c2, c3, c4, c5, c6]⟩ = [c1, c2, c3, c4, c5, c6] := rfl

theorem hexVal_ne_mark (c : Char) (d : ℕ) (h : hexVal c = some d) :
    c.toNat ≠ 120 ∧ c.toNat ≠ 88 :=
  ⟨(hexVal_facts c d h).2.2.2.2.2.1, (hexVal_facts c d h).2.2.2.2.2.2⟩

theorem darkForRgb_hex (s : String) (c1 c2 c3 c4 c5 c6 : Char)
    (d1 d2 d3 d4 d5 d6 : ℕ) (hs : s.data = [c1, c2, c3, c4, c5, c6])
    (h1 : hexVal c1 = some d1) (h2 : hexVal c2 = some d2)
    (h3 : hexVal c3 = some d3) (h4 : hexVal c4 = some d4)
    (h5 : hexVal c5 = some d5) (h6 : hexVal c6 = some d6)
    (hne : 299 * (16 * d1 + d2) + 587 * (16 * d3 + d4) + 114 * (16 * d5 + d6) ≠ 128000) :
    (darkForRgb s = true ↔
      299 * (16 * d1 + d2) + 587 * (16 * d3 + d4) + 114 * (16 * d5 + d6) < 128000) := by
  obtain ⟨l⟩ := s
  simp only [String.data] at hs
  subst hs
  have hnemp : ¬ ((⟨[c1, c2, c3, c4, c5, c6]⟩ : String) = "") := by
    intro hq
    have := congrArg (fun t : String => t.data.length) hq
    simp at this
  by_cases hw : (⟨[c1, c2, c3, c4, c5, c6]⟩ : String) ∈ whiteBgCells
  · -- the white sentinels of length 6 force every digit to be 15
    have hall : d1 = 15 ∧ d2 = 15 ∧ d3 = 15 ∧ d4 = 15 ∧ d5 = 15 ∧ d6 = 15 := by
      simp only [whiteBgCells, List.mem_cons, List.not_mem_nil, or_false] at hw
      rcases hw with hw | hw | hw | hw
      · exact absurd (congrArg (fun t : String => t.data.length) hw) (by simp)
      · exact absurd (congrArg (fun t : String => t.data.length) hw) (by simp)
      · have hd := congrArg String.data hw
        simp only [String.data] at hd
        have : c1 = 'F' ∧ c2 = 'F' ∧ c3 = 'F' ∧ c4 = 'F' ∧ c5 = 'F' ∧ c6 = 'F' := by
          simpa using hd
        obtain ⟨e1, e2, e3, e4, e5, e6⟩ := this
        subst e1; subst e2; subst e3; subst e4; subst e5; subst e6
        have hF : hexVal 'F' = some 15 := rfl
        rw [hF] at h1 h2 h3 h4 h5 h6
        injection h1 with h1'; injection h2 with h2'; injection h3 with h3'
        injection h4 with h4'; injection h5 with h5'; injection h6 with h6'
        omega
      · have hd := congrArg String.data hw
        simp only [String.data] at hd
        have : c1 = 'f' ∧ c2 = 'f' ∧ c3 = 'f' ∧ c4 = 'f' ∧ c5 = 'f' ∧ c6 = 'f' := by
          simpa using hd
        obtain ⟨e1, e2, e3, e4, e5, e6⟩ := this
        subst e1; subst e2; subst e3; subst e4; subst e5; subst e6
        have hF : hexVal 'f' = some 15 := rfl
        rw [hF] at h1 h2 h3 h4 h5 h6
        injection h1 with h1'; injection h2 with h2'; injection h3 with h3'
        injection h4 with h4'; injection h5 with h5'; injection h6 with h6'
        omega
    obtain ⟨e1, e2, e3, e4, e5, e6⟩ := hall
    subst e1; subst e2; subst e3; subst e4; subst e5; subst e6
    have hdark : darkForRgb ⟨[c1, c2, c3, c4, c5, c6]⟩ = false := by
      rw [darkForRgb, if_neg hnemp, if_pos hw]
    refine iff_of_false ?_ (by omega)
    rw [hdark]
    simp
  · rw [darkForRgb, if_neg hnemp, if_neg hw, rgbLast6_six,
      rgbChannels_hex c1 c2 c3 c4 c5 c6 d1 d2 d3 d4 d5 d6 h1 h2 h3 h4 h5 h6]
    exact v2dark_char (16 * d1 + d2) (16 * d3 + d4) (16 * d5 + d6)
      (by have := (hexVal_facts c1 d1 h1).1; have := (hexVal_facts c2 d2 h2).1; omega)
      (by have := (hexVal_facts c3 d3 h3).1; have := (hexVal_facts c4 d4 h4).1; omega)
      (by have := (hexVal_facts c5 d5 h5).1; have := (hexVal_facts c6 d6 h6).1; omega)
      hne

theorem colorsOnly_hex (s : String) (c1 c2 c3 c4 c5 c6 : Char)
    (d1 d2 d3 d4 d5 d6 : ℕ) (hs : s.data = [c1, c2, c3, c4, c5, c6])
    (h1 : hexVal c1 = some d1) (h2 : hexVal c2 = some d2)
    (h3 : hexVal c3 = some d3) (h4 : hexVal c4 = some d4)
    (h5 : hexVal c5 = some d5) (h6 : hexVal c6 = some d6)
    (hne : 299 * (16 * d1 + d2) + 587 * (16 * d3 + d4) + 114 * (16 * d5 + d6) ≠ 128000) :
    (colorsOnlyFontColorStr s = some "FFFFFF" ↔
      299 * (16 * d1 + d2) + 587 * (16 * d3 + d4) + 114 * (16 * d5 + d6) < 128000) := by
  have hred : colorsOnlyFontColorStr s =
      some (colorsOnlyFontColor ((16 * d1 + d2 : ℕ) : ℤ) ((16 * d3 + d4 : ℕ) : ℤ)
        ((16 * d5 + d6 : ℕ) : ℤ)) := by
    rw [colorsOnlyFontColorStr, hs,
      rgbChannels_hex c1 c2 c3 c4 c5 c6 d1 d2 d3 d4 d5 d6 h1 h2 h3 h4 h5 h6]
  rw [hred]
  have hch := colorsWhite_char (16 * d1 + d2) (16 * d3 + d4) (16 * d5 + d6)
    (by have := (hexVal_facts c1 d1 h1).1; have := (hexVal_facts c2 d2 h2).1; omega)
    (by have := (hexVal_facts c3 d3 h3).1; have := (hexVal_facts c4 d4 h4).1; omega)
    (by have := (hexVal_facts c5 d5 h5).1; have := (hexVal_facts c6 d6 h6).1; omega)
    hne
  constructor
  · intro h
    apply hch.mp
    injection h
  · intro h
    rw [hch.mpr h]


/-! ## Claims C1, C2, C4: the contrast selector -/

/-- C1 (counterexample): the colour `#808080` has BT.601 luminance exactly 128
(`0.299*128 + 0.587*128 + 0.114*128 = 128`), so the claim classifies it as
light (black text); but `create_colors_only` gives it *white* text and the
kitchen-sink-v2 sweep classifies it as *dark*, because the binary64 value of
the luminance expression is slightly below 128. -/
theorem c1_counterexample :
    299 * 128 + 587 * 128 + 114 * 128 = 128000 ∧
    colorsOnlyFontColorStr "808080" = some "FFFFFF" ∧
    darkForRgb "808080" = true := by
  refine ⟨by norm_num, by decide, by decide⟩

/-- C1 (amended): for every 6-hex-digit colour string whose exact luminance is
not exactly 128 (`299R + 587G + 114B ≠ 128000`), the kitchen-sink-v2 sweep
classifies the background as dark exactly when `299R + 587G + 114B < 128000`,
and `create_colors_only` picks white text in exactly the same cases; colours
with exact luminance 128 are decided by binary64 rounding instead. -/
theorem c1_amended (s : String) (c1 c2 c3 c4 c5 c6 : Char) (d1 d2 d3 d4 d5 d6 : ℕ)
    (hs : s.data = [c1, c2, c3, c4, c5, c6])
    (h1 : hexVal c1 = some d1) (h2 : hexVal c2 = some d2)
    (h3 : hexVal c3 = some d3) (h4 : hexVal c4 = some d4)
    (h5 : hexVal c5 = some d5) (h6 : hexVal c6 = some d6)
    (hne : 299 * (16 * d1 + d2) + 587 * (16 * d3 + d4) + 114 * (16 * d5 + d6) ≠ 128000) :
    (darkForRgb s = true ↔
      299 * (16 * d1 + d2) + 587 * (16 * d3 + d4) + 114 * (16 * d5 + d6) < 128000) ∧
    (colorsOnlyFontColorStr s = some "FFFFFF" ↔
      299 * (16 * d1 + d2) + 587 * (16 * d3 + d4) + 114 * (16 * d5 + d6) < 128000) :=
  ⟨darkForRgb_hex s c1 c2 c3 c4 c5 c6 d1 d2 d3 d4 d5 d6 hs h1 h2 h3 h4 h5 h6 hne,
   colorsOnly_hex s c1 c2 c3 c4 c5 c6 d1 d2 d3 d4 d5 d6 hs h1 h2 h3 h4 h5 h6 hne⟩

/-- C1 (witness): the amended claim applied to the concrete colour `000000`
(luminance 0): the sweep treats it as dark and `create_colors_only` picks
white text. -/
theorem c1_witness :
    darkForRgb "000000" = true ∧ colorsOnlyFontColorStr "000000" = some "FFFFFF" := by
  have h := c1_amended "000000" '0' '0' '0' '0' '0' '0' 0 0 0 0 0 0
    (by decide) (by decide) (by decide) (by decide) (by decide) (by decide) (by decide)
    (by decide)
  exact ⟨h.1.mpr (by decide), h.2.mpr (by decide)⟩

/-- C2 (counterexample): `808080` computes luminance exactly 128 under the
spec's formula, yet the kitchen-sink-v2 sweep classifies it as dark, not
light. -/
theorem c2_counterexample :
    299 * 128 + 587 * 128 + 114 * 128 = 128000 ∧ darkForRgb "808080" = true := by
  refine ⟨by norm_num, by decide⟩

/-- C2 (amended): the comparisons are strict as written (`luminance < 128` in
the v2 sweep, `luminance > 128` for black in `create_colors_only`) but they are
applied to the binary64 value of the luminance expression: at `#808080`
(channels 128, 128, 128; exact luminance 128) that value is
`9007199254740991 * 2 ^ (-46) = 127.99999999999999 < 128`, so the v2 sweep
classifies it dark, and `create_colors_only` gives it white text. -/
theorem c2_amended :
    luminanceV2 128 128 128 = ⟨9007199254740991, -46⟩ ∧
    (luminanceV2 128 128 128).val < 128 ∧
    darkForRgb "808080" = true ∧
    colorsOnlyFontColorStr "808080" = some "FFFFFF" := by
  have h : luminanceV2 128 128 128 = ⟨9007199254740991, -46⟩ := by decide
  refine ⟨h, ?_, by decide, by decide⟩
  rw [h, val_mk]
  rw [show ((-46 : ℤ)) = -(46 : ℤ) by ring, zpow_neg]
  rw [show ((2 : ℚ) ^ (46 : ℤ)) = (2 : ℚ) ^ (46 : ℕ) by
    rw [← zpow_natCast]
    norm_num]
  norm_num

/-- C4 (counterexample): the malformed colour string `-1-2-3` (non-hex
characters) does *not* fall back to the light default: Python's `int(s, 16)`
accepts the signed two-character slices, the channels parse as
`(-1, -2, -3)`, and the cell is classified as having a dark background. -/
theorem c4_counterexample :
    rgbChannels (rgbLast6 "-1-2-3") = some (-1, -2, -3) ∧
    darkForRgb "-1-2-3" = true := by
  refine ⟨by decide, by decide⟩

/-- C4 (amended): no malformed colour raises (the embedding is total); whenever
the channel parse fails with `ValueError`/`IndexError` — as for `"ZZZZZZ"` or
the 3-digit `"FFF"` — the sweep falls back to not-dark.  But strings whose
2-character slices are accepted by Python's lenient `int(s, 16)` (signs,
whitespace) are classified by the luminance formula instead. -/
theorem c4_amended :
    (∀ s : String, rgbChannels (rgbLast6 s) = none → darkForRgb s = false) ∧
    rgbChannels (rgbLast6 "ZZZZZZ") = none ∧
    rgbChannels (rgbLast6 "FFF") = none ∧
    darkForRgb "ZZZZZZ" = false ∧ darkForRgb "FFF" = false := by
  refine ⟨?_, by decide, by decide, by decide, by decide⟩
  intro s h
  rw [darkForRgb]
  split
  · rfl
  · split
    · rfl
    · rw [h]

/-- C4 (witness): the amended claim applied to the concrete non-hex string
`GGGGGG`. -/
theorem c4_witness : darkForRgb "GGGGGG" = false :=
  c4_amended.1 "GGGGGG" (by decide)

/-! ## The sweep equations -/

theorem sweepCell_value_none (c : Cell) (h : c.value = none) : sweepCell c = c := by
  simp [sweepCell, h]

theorem sweepCell_font_none (c : Cell) (v : PyValue) (hval : c.value = some v)
    (h : c.font = none) : sweepCell c = c := by
  simp [sweepCell, hval, h]

theorem sweepCell_color_none (c : Cell) (v : PyValue) (f : PyFont)
    (hval : c.value = some v) (hf : c.font = some f) (hc : f.color = none) :
    sweepCell c = { c with font := some (blackFont f) } := by
  simp [sweepCell, hval, hf, hc]

theorem sweepCell_replace (c : Cell) (v : PyValue) (f : PyFont) (col : ColorObj)
    (hval : c.value = some v) (hf : c.font = some f) (hc : f.color = some col)
    (hcond : (colorIsWhite col && !hasDarkBg c) = true) :
    sweepCell c = { c with font := some (blackFont f) } := by
  simp [sweepCell, hval, hf, hc, hcond]

theorem sweepCell_keep (c : Cell) (v : PyValue) (f : PyFont) (col : ColorObj)
    (hval : c.value = some v) (hf : c.font = some f) (hc : f.color = some col)
    (hcond : (colorIsWhite col && !hasDarkBg c) = false) :
    sweepCell c = c := by
  simp [sweepCell, hval, hf, hc, hcond]

theorem sweepCell_cases (c : Cell) :
    sweepCell c = c ∨
      ∃ f, c.font = some f ∧ sweepCell c = { c with font := some (blackFont f) } := by
  rcases hv0 : c.value with _ | v
  · exact Or.inl (sweepCell_value_none c hv0)
  · rcases hf0 : c.font with _ | f
    · exact Or.inl (sweepCell_font_none c v hv0 hf0)
    · rcases hc0 : f.color with _ | col
      · refine Or.inr ⟨f, rfl, ?_⟩
        rw [← hv0]
        exact sweepCell_color_none c v f hv0 hf0 hc0
      · cases hcond : (colorIsWhite col && !hasDarkBg c)
        · exact Or.inl (sweepCell_keep c v f col hv0 hf0 hc0 hcond)
        · refine Or.inr ⟨f, rfl, ?_⟩
          rw [← hv0]
          exact sweepCell_replace c v f col hv0 hf0 hc0 hcond

/-! ## Claims C3, C5, C9: override set and the font sweep -/

/-- C3: a cell whose fill foreground colour is absent (no fill, gradient fill,
no `fgColor`, `rgb = None`) or whose rgb string is one of the white sentinels
`#FFFFFF`, `#ffffff`, `FFFFFF`, `ffffff` is never classified as having a dark
background, whatever the luminance formula would compute. -/
theorem c3 (c : Cell)
    (h : fillFgRgb c = none ∨ ∃ s, fillFgRgb c = some s ∧ s ∈ whiteBgCells) :
    hasDarkBg c = false := by
  rcases h with h | ⟨s, hs, hmem⟩
  · simp [hasDarkBg, h]
  · have hne : s ≠ "" := by
      rintro rfl
      exact absurd hmem (by decide)
    simp only [hasDarkBg, hs]
    rw [darkForRgb, if_neg hne, if_pos hmem]

/-- C3 (witness): a cell filled with `ffffff` and no font is classified
light by the override. -/
theorem c3_witness :
    hasDarkBg ⟨some (PyValue.str "v"), some (Fill.pattern (some ⟨some "ffffff"⟩)), none⟩
      = false :=
  c3 _ (Or.inr ⟨"ffffff", rfl, by decide⟩)

/-- C5: after the kitchen-sink-v2 sweep, no cell with a non-`None` value keeps a
white font colour (`FFFFFFFF`, `00FFFFFF` or `FFFFFF`) over a background that is
not classified dark: white-on-light does not occur in the final state. -/
theorem c5 (cells : List Cell) (c : Cell) (hc : c ∈ sweep cells)
    (hv : c.value ≠ none) (hw : fontIsWhite c = true) : hasDarkBg c = true := by
  rw [sweep, List.mem_map] at hc
  obtain ⟨c0, _, hceq⟩ := hc
  subst hceq
  rcases hv0 : c0.value with _ | v
  · rw [sweepCell_value_none c0 hv0] at hv
    exact absurd hv0 hv
  · rcases hf0 : c0.font with _ | f
    · rw [sweepCell_font_none c0 v hv0 hf0] at hw
      simp [fontIsWhite, hf0] at hw
    · rcases hc0 : f.color with _ | col
      · rw [sweepCell_color_none c0 v f hv0 hf0 hc0] at hw
        simp [fontIsWhite, blackFont, colorIsWhite, whiteFontRgbs] at hw
      · cases hcond : (colorIsWhite col && !hasDarkBg c0)
        · rw [sweepCell_keep c0 v f col hv0 hf0 hc0 hcond] at hw ⊢
          have hcw : colorIsWhite col = true := by
            simpa [fontIsWhite, hf0, hc0] using hw
          cases hdk : hasDarkBg c0
          · rw [hcw, hdk] at hcond
            simp at hcond
          · rfl
        · rw [sweepCell_replace c0 v f col hv0 hf0 hc0 hcond] at hw
          simp [fontIsWhite, blackFont, colorIsWhite, whiteFontRgbs] at hw

/-- C5 (witness): a white-font cell on a `000000` fill survives the sweep and
indeed has a dark background. -/
theorem c5_witness :
    hasDarkBg ⟨some (PyValue.str "x"),
      some (Fill.pattern (some ⟨some "000000"⟩)),
      some ⟨none, none, none, none, none, none, some ⟨some "FFFFFF"⟩⟩⟩ = true :=
  c5 [⟨some (PyValue.str "x"),
      some (Fill.pattern (some ⟨some "000000"⟩)),
      some ⟨none, none, none, none, none, none, some ⟨some "FFFFFF"⟩⟩⟩] _
    (by decide) (by decide) (by decide)

/-- C9: the sweep never touches a cell whose value is `None`, never touches a
cell whose font colour is an explicit non-white rgb, always preserves the
cell's value and fill, and whenever the cell had a font, the resulting font
keeps the original name, size, bold, italic, underline and strike. -/
theorem c9 (c : Cell) :
    (c.value = none → sweepCell c = c) ∧
    (∀ f col s, c.font = some f → f.color = some col → col.rgb = some s →
      s ∉ whiteFontRgbs → sweepCell c = c) ∧
    ((sweepCell c).value = c.value ∧ (sweepCell c).fill = c.fill) ∧
    (∀ f, c.font = some f → ∃ f2, (sweepCell c).font = some f2 ∧
      f2.name = f.name ∧ f2.size = f.size ∧ f2.bold = f.bold ∧ f2.italic = f.italic ∧
      f2.underline = f.underline ∧ f2.strike = f.strike) := by
  refine ⟨sweepCell_value_none c, ?_, ?_, ?_⟩
  · intro f col s hf hc hr hnm
    have hcw : colorIsWhite col = false := by
      simp only [colorIsWhite, hr]
      exact decide_eq_false hnm
    rcases hv0 : c.value with _ | v
    · exact sweepCell_value_none c hv0
    · exact sweepCell_keep c v f col hv0 hf hc (by rw [hcw, Bool.false_and])
  · rcases sweepCell_cases c with h | ⟨f, hf, h⟩
    · rw [h]
      exact ⟨rfl, rfl⟩
    · rw [h]
      exact ⟨rfl, rfl⟩
  · intro f hf
    rcases sweepCell_cases c with h | ⟨f', hf', h⟩
    · rw [h, hf]
      exact ⟨f, rfl, rfl, rfl, rfl, rfl, rfl, rfl⟩
    · rw [hf] at hf'
      injection hf' with hff
      subst hff
      rw [h]
      exact ⟨blackFont f, rfl, rfl, rfl, rfl, rfl, rfl, rfl⟩

/-- C9 (witness): a valued cell whose font colour is the explicit non-white
`FF0000` passes through the sweep unchanged. -/
theorem c9_witness :
    sweepCell ⟨some (PyValue.str "x"), none,
      some ⟨some "Arial", none, some true, some false, some "single", some false,
        some ⟨some "FF0000"⟩⟩⟩ =
      ⟨some (PyValue.str "x"), none,
        some ⟨some "Arial", none, some true, some false, some "single", some false,
          some ⟨some "FF0000"⟩⟩⟩ :=
  (c9 _).2.1 _ _ "FF0000" rfl rfl rfl (by decide)

/-! ## Sortedness of string comparison -/

theorem lexLe_total (xs ys : List Char) : lexLe xs ys = true ∨ lexLe ys xs = true := by
  induction xs generalizing ys with
  | nil => exact Or.inl rfl
  | cons x xs ih =>
    cases ys with
    | nil => exact Or.inr rfl
    | cons y ys =>
      simp only [lexLe]
      rcases Nat.lt_trichotomy x.toNat y.toNat with h | h | h
      · left
        rw [if_pos h]
      · rw [if_neg (by omega), if_neg (by omega), if_neg (by omega), if_neg (by omega)]
        exact ih ys
      · right
        rw [if_pos h]

theorem lexLe_trans (xs ys zs : List Char) (h1 : lexLe xs ys = true)
    (h2 : lexLe ys zs = true) : lexLe xs zs = true := by
  induction xs generalizing ys zs with
  | nil => rfl
  | cons x xs ih =>
    cases ys with
    | nil => simp [lexLe] at h1
    | cons y ys =>
      cases zs with
      | nil => simp [lexLe] at h2
      | cons z zs =>
        simp only [lexLe] at h1 h2 ⊢
        by_cases hxy : x.toNat < y.toNat
        · by_cases hyz : y.toNat < z.toNat
          · rw [if_pos (by omega)]
          · rw [if_neg hyz] at h2
            by_cases hzy : z.toNat < y.toNat
            · rw [if_pos hzy] at h2
              exact absurd h2 (by simp)
            · rw [if_pos (by omega)]
        · by_cases hyx : y.toNat < x.toNat
          · rw [if_neg hxy, if_pos hyx] at h1
            exact absurd h1 (by simp)
          · rw [if_neg hxy, if_neg hyx] at h1
            by_cases hyz : y.toNat < z.toNat
            · rw [if_pos (by omega)]
            · by_cases hzy : z.toNat < y.toNat
              · rw [if_neg hyz, if_pos hzy] at h2
                exact absurd h2 (by simp)
              · rw [if_neg hyz, if_neg hzy] at h2
                rw [if_neg (by omega), if_neg (by omega)]
                exact ih ys zs h1 h2

/-! ## Claims C6, C7, C8, C10: output paths, manifest, command line -/

/-- C6 (counterexample): `generate_kitchen_sink_v2.py` and
`generate_kitchen_sink_v3.py` never create the output directory before
writing, and the v2 output directory is the hard-coded absolute
`/Users/robby/projects/xlview/test`, unchanged when the script lives
elsewhere — not a path computed relative to the script location. -/
theorem c6_counterexample :
    kitchenSinkV2Save.mkdirBeforeWrite = false ∧
    kitchenSinkV3Save.mkdirBeforeWrite = false ∧
    kitchenSinkV2Save.dir ["home", "user", "xlview", "scripts", "generate_kitchen_sink_v2.py"] =
      ["Users", "robby", "projects", "xlview", "test"] ∧
    kitchenSinkV2Save.dir ["elsewhere", "generate_kitchen_sink_v2.py"] =
      kitchenSinkV2Save.dir ["home", "user", "xlview", "scripts", "generate_kitchen_sink_v2.py"] :=
  ⟨rfl, rfl, rfl, rfl⟩

/-- C6 (amended): only `generate_test_xlsx.py` writes into a directory computed
relative to its own location (`Path(__file__).parent.parent / "test"`) and
creates it (`mkdir(exist_ok=True)`) before every save; the kitchen-sink v2 and
v3 scripts write to a hard-coded absolute directory, independent of the script
location, and never create it. -/
theorem c6_amended :
    testXlsxSave.mkdirBeforeWrite = true ∧
    (∀ p, testXlsxSave.dir p = p.dropLast.dropLast ++ ["test"]) ∧
    kitchenSinkV2Save.mkdirBeforeWrite = false ∧
    kitchenSinkV3Save.mkdirBeforeWrite = false ∧
    (∀ p q, kitchenSinkV2Save.dir p = kitchenSinkV2Save.dir q) ∧
    (∀ p q, kitchenSinkV3Save.dir p = kitchenSinkV3Save.dir q) :=
  ⟨rfl, fun _ => rfl, rfl, rfl, fun _ _ => rfl, fun _ _ => rfl⟩

/-- C7: `update_manifest` rebuilds the manifest purely from the directory
listing (the previous manifest is not an input), its entries are exactly one
`{name, size}` record per `*.xlsx` file, and the size string carries the `MB`
suffix above 1,000,000 bytes, the `KB` suffix above 1,000 bytes, and a bare
`B` suffix otherwise. -/
theorem c7 :
    (∀ (files : List (String × ℕ)) (e : ManifestEntry),
      e ∈ updateManifest files ↔
        ∃ p, p ∈ files ∧ globXlsx p.1 = true ∧ e = ⟨p.1, humanSize p.2⟩) ∧
    (∀ (sizeOf : String → ℕ) (d : DirState),
      (applyAction sizeOf MainAction.writeManifest d).manifest =
        some (updateManifest d.files)) ∧
    (∀ n : ℕ, 1000000 < n → ∃ pre, humanSize n = pre ++ "MB") ∧
    (∀ n : ℕ, 1000 < n → n ≤ 1000000 → ∃ pre, humanSize n = pre ++ "KB") ∧
    (∀ n : ℕ, n ≤ 1000 → humanSize n = toString n ++ "B") := by
  refine ⟨?_, ?_, ?_, ?_, ?_⟩
  · intro files e
    unfold updateManifest
    rw [List.mem_map]
    constructor
    · rintro ⟨p, hp, hpe⟩
      have hp' := (List.perm_insertionSort
        (fun f g : String × ℕ => lexLe f.1.data g.1.data = true)
        (files.filter (fun f => globXlsx f.1))).mem_iff.mp hp
      rw [List.mem_filter] at hp'
      exact ⟨p, hp'.1, hp'.2, hpe.symm⟩
    · rintro ⟨p, hpf, hpx, hpe⟩
      refine ⟨p, ?_, hpe.symm⟩
      exact (List.perm_insertionSort _ _).mem_iff.mpr (List.mem_filter.mpr ⟨hpf, hpx⟩)
  · intro sizeOf d
    rfl
  · intro n h
    unfold humanSize
    rw [if_pos h]
    exact ⟨_, rfl⟩
  · intro n h1 h2
    unfold humanSize
    rw [if_neg (by omega), if_pos h1]
    exact ⟨_, rfl⟩
  · intro n h
    unfold humanSize
    rw [if_neg (by omega), if_neg (by omega)]

/-- C7 (witness): a 2,500,000-byte file gets the size string `2.5MB`. -/
theorem c7_witness :
    (∃ pre, humanSize 2500000 = pre ++ "MB") ∧ humanSize 2500000 = "2.5MB" :=
  ⟨c7.2.2.1 2500000 (by norm_num), by decide⟩

/-- C8: with `--manifest-only`, `main` only rewrites the manifest from the
current listing and returns: the spreadsheet files are untouched and no
generator runs. -/
theorem c8 (a : Args) (h : a.manifestOnly = true) (sizeOf : String → ℕ)
    (d : DirState) :
    runMain sizeOf a d = ⟨d.files, some (updateManifest d.files)⟩ := by
  rw [runMain, mainActions, if_pos h]
  rfl

/-- C8 (witness): a concrete manifest-only run leaves the lone fixture file in
place and rewrites only the manifest. -/
theorem c8_witness :
    runMain (fun _ => 0) ⟨none, 5000, 20, true⟩ ⟨[("kitchen_sink.xlsx", 999)], none⟩ =
      ⟨[("kitchen_sink.xlsx", 999)], some [⟨"kitchen_sink.xlsx", "999B"⟩]⟩ := by
  rw [c8 ⟨none, 5000, 20, true⟩ rfl (fun _ => 0) ⟨[("kitchen_sink.xlsx", 999)], none⟩]
  decide

/-- C10: the manifest entries are always in lexicographically sorted order of
file name (code-point order, as produced by Python's `sorted`). -/
theorem c10 (files : List (String × ℕ)) :
    List.Sorted (fun e1 e2 : ManifestEntry => lexLe e1.name.data e2.name.data = true)
      (updateManifest files) := by
  haveI ht1 : IsTotal (String × ℕ) (fun f g => lexLe f.1.data g.1.data = true) :=
    ⟨fun a b => lexLe_total a.1.data b.1.data⟩
  haveI ht2 : IsTrans (String × ℕ) (fun f g => lexLe f.1.data g.1.data = true) :=
    ⟨fun a b c hab hbc => lexLe_trans _ _ _ hab hbc⟩
  have hs := List.sorted_insertionSort
    (fun f g : String × ℕ => lexLe f.1.data g.1.data = true)
    (files.filter (fun f => globXlsx f.1))
  unfold updateManifest
  exact List.Pairwise.map _ (fun a b hab => hab) hs
